import Mathlib

/-!
Verification of the FastIron defect-ledger extraction pipeline.

The definitions in this file are a shallow embedding of the Python sources
`src/extract_issues.py` (defect extraction and merge) and, where referenced,
`src/extract_features.py`.  Strings are modelled as Lean `String`s, Python
dicts keyed by strings as association lists or as functions into `Option`,
and Python regular expressions as explicit character-list scanners with the
same (deterministic, backtracking-free on these patterns) semantics.
-/

namespace FastIron

/-! ### String utilities (Python `str.strip`, `str.lower`, `in`, `re.sub`) -/

/-- Python whitespace class `\s` restricted to ASCII, which is all the
sources use: space, tab, newline, carriage return, vertical tab, form feed. -/
def isPyWS (c : Char) : Bool :=
  c = ' ' || c = '\t' || c = '\n' || c = '\r' || c = '\x0b' || c = '\x0c'

/-- Python `str.strip()` on a character list: drop whitespace at both ends. -/
def pyStripL (l : List Char) : List Char :=
  ((l.dropWhile isPyWS).reverse.dropWhile isPyWS).reverse

/-- Python `str.strip()`. -/
def pyStrip (s : String) : String := ⟨pyStripL s.data⟩

/-- Python `str.lower()` (ASCII; the sources only compare ASCII labels). -/
def pyLower (s : String) : String := ⟨s.data.map Char.toLower⟩

/-- Collapse every maximal run of whitespace to a single space, the effect of
`re.sub(r'\s+', ' ', text)`.  The flag records whether the previous character
was whitespace, so each run contributes exactly one space. -/
def collapseGo : Bool → List Char → List Char
  | _, [] => []
  | prevWS, c :: rest =>
    if isPyWS c then
      if prevWS then collapseGo true rest else ' ' :: collapseGo true rest
    else c :: collapseGo false rest

/-- `re.sub(r'\s+', ' ', text)` on a character list. -/
def collapseWSL (l : List Char) : List Char := collapseGo false l

/-- `clean_text` from `src/extract_issues.py`: newlines and carriage returns
become spaces, whitespace runs collapse to one space, ends are stripped. -/
def cleanText (s : String) : String :=
  ⟨pyStripL (collapseWSL (s.data.map (fun c => if c = '\n' || c = '\r' then ' ' else c)))⟩

/-- Does the second list start with the first (case-sensitive)? -/
def listStarts : List Char → List Char → Bool
  | [], _ => true
  | _ :: _, [] => false
  | p :: ps, c :: cs => p == c && listStarts ps cs

/-- Substring search, the semantics of Python `needle in hay`. -/
def listFind (needle : List Char) : List Char → Bool
  | [] => listStarts needle []
  | c :: rest => listStarts needle (c :: rest) || listFind needle rest

/-- Python `needle in hay` on strings. -/
def containsSub (hay needle : String) : Bool := listFind needle.data hay.data

/-- Does the list start with the given all-lowercase pattern, comparing
case-insensitively? -/
def listStartsCI : List Char → List Char → Bool
  | [], _ => true
  | _ :: _, [] => false
  | p :: ps, c :: cs => p == c.toLower && listStartsCI ps cs

/-- Case-insensitive substring search, the semantics of
`re.search(pat, hay, re.IGNORECASE)` for a plain-text pattern. -/
def listFindCI (needle : List Char) : List Char → Bool
  | [] => listStartsCI needle []
  | c :: rest => listStartsCI needle (c :: rest) || listFindCI needle rest

/-! ### Defect table parser (`src/extract_issues.py`) -/

/-- One per-document defect record, the dict built by `parse_defect_table`
plus the `version_history` dict added by `extract_defects_from_pdf`. -/
structure PDefect where
  id : String
  symptom : String
  condition : String
  workaround : String
  recovery : String
  probability : String
  found_in : List String
  technology : String
  version_history : List (String × String)
deriving Repr, DecidableEq

/-- Does a stripped cell match `re.match(r'FI-\d+', cell)`: starts with
`FI-` followed by at least one digit? -/
def fiDashMatch (s : String) : Bool :=
  match s.data with
  | 'F' :: 'I' :: '-' :: c :: _ => c.isDigit
  | _ => false

/-- `is_defect_table`: at least 7 rows, first row exactly two cells, first
cell (stripped, lowered) equal to `issue`, second cell matching `FI-\d+`. -/
def isDefectTable (t : List (List String)) : Bool :=
  match t with
  | [] => false
  | firstRow :: _ =>
    if t.length < 7 then false
    else
      match firstRow with
      | [c1, c2] => pyLower (pyStrip c1) == "issue" && fiDashMatch (pyStrip c2)
      | _ => false

/-- `extract_fi_number`: the `FI-<digits>` group of `re.match(r'(FI-\d+)', cell)`
on the stripped second cell of the first row. -/
def extractFiNumber (t : List (List String)) : Option String :=
  match t with
  | (_ :: c2 :: _) :: _ =>
    match (pyStrip c2).data with
    | 'F' :: 'I' :: '-' :: rest =>
      let ds := rest.takeWhile Char.isDigit
      if ds.isEmpty then none else some ⟨'F' :: 'I' :: '-' :: ds⟩
    | _ => none
  | _ => none

/-- ASCII letter, the `[a-z]` class under `re.IGNORECASE`. -/
def isAsciiLetter (c : Char) : Bool :=
  ('a' ≤ c && c ≤ 'z') || ('A' ≤ c && c ≤ 'Z')

/-- One attempted match of `FI\s*(\d+\.\d+\.\d+[a-z]*(?:_cd\d+)?)` with
`re.IGNORECASE` at the head of the list.  On success, returns the captured
group (original case preserved) and the suffix after the whole match.  On
these patterns greedy matching never backtracks, so maximal-run scanning is
exact. -/
def matchFIAt (l : List Char) : Option (List Char × List Char) :=
  match l with
  | f :: i :: rest =>
    if (f = 'F' || f = 'f') && (i = 'I' || i = 'i') then
      let afterWS := rest.dropWhile isPyWS
      let d1 := afterWS.takeWhile Char.isDigit
      if d1.isEmpty then none else
      match afterWS.dropWhile Char.isDigit with
      | '.' :: r2 =>
        let d2 := r2.takeWhile Char.isDigit
        if d2.isEmpty then none else
        match r2.dropWhile Char.isDigit with
        | '.' :: r4 =>
          let d3 := r4.takeWhile Char.isDigit
          if d3.isEmpty then none else
          let r5 := r4.dropWhile Char.isDigit
          let ls := r5.takeWhile isAsciiLetter
          let r6 := r5.dropWhile isAsciiLetter
          let core := d1 ++ '.' :: d2 ++ '.' :: d3 ++ ls
          match r6 with
          | '_' :: a :: b :: r7 =>
            if (a = 'c' || a = 'C') && (b = 'd' || b = 'D') then
              let ds := r7.takeWhile Char.isDigit
              if ds.isEmpty then some (core, r6)
              else some (core ++ '_' :: a :: b :: ds, r7.dropWhile Char.isDigit)
            else some (core, r6)
          | _ => some (core, r6)
        | _ => none
      | _ => none
    else none
  | _ => none

/-- Fuelled scan implementing `re.findall` for the pattern above: try a match
at every position, and resume after the end of each successful match. -/
def scanFI : Nat → List Char → List String
  | 0, _ => []
  | _ + 1, [] => []
  | fuel + 1, c :: rest =>
    match matchFIAt (c :: rest) with
    | some (tok, after) => (⟨tok⟩ : String) :: scanFI fuel after
    | none => scanFI fuel rest

/-- `re.findall(r'FI\s*(\d+\.\d+\.\d+[a-z]*(?:_cd\d+)?)', s, re.IGNORECASE)`.
Each successful match consumes at least two characters, so fuel equal to the
length of the string is never exhausted early. -/
def findallFI (s : String) : List String := scanFI s.data.length s.data

/-- The all-empty record `parse_defect_table` starts from, with the given id. -/
def emptyDefect (fi : String) : PDefect :=
  { id := fi, symptom := "", condition := "", workaround := "", recovery := "",
    probability := "", found_in := [], technology := "", version_history := [] }

/-- The body of the row loop of `parse_defect_table`: rows with fewer than two
cells are skipped; otherwise the stripped, lowered first cell is matched by
substring against the field labels in source order, first match wins. -/
def parseRow (d : PDefect) (row : List String) : PDefect :=
  match row with
  | c1 :: c2 :: _ =>
    let name := pyLower (pyStrip c1)
    let value := pyStrip c2
    if containsSub name "symptom" then { d with symptom := cleanText value }
    else if containsSub name "condition" then { d with condition := cleanText value }
    else if containsSub name "workaround" then { d with workaround := cleanText value }
    else if containsSub name "recovery" then { d with recovery := cleanText value }
    else if containsSub name "probability" then { d with probability := cleanText value }
    else if containsSub name "found in" then { d with found_in := findallFI value }
    else if containsSub name "technology" then { d with technology := cleanText value }
    else d
  | _ => d

/-- `parse_defect_table`: gate through `is_defect_table`, extract the id, run
the row loop, and discard the record when the symptom ends up empty. -/
def parseDefectTable (t : List (List String)) : Option PDefect :=
  if isDefectTable t then
    match extractFiNumber t with
    | none => none
    | some fi =>
      let d := t.foldl parseRow (emptyDefect fi)
      if d.symptom = "" then none else some d
  else none

/-! ### Section status tracker (`determine_section_status`) -/

/-- Scan for the tail of `Closed Issues.*with Code Changes` within one line:
`.` does not cross a newline when `re.DOTALL` is off. -/
def lineScanCI (needle : List Char) : List Char → Bool
  | [] => false
  | c :: rest =>
    listStartsCI needle (c :: rest) || (if c = '\n' then false else lineScanCI needle rest)

/-- `re.search(r'Closed Issues.*with Code Changes', text, re.IGNORECASE)`:
some occurrence of `closed issues` followed, with no intervening newline, by
`with code changes`. -/
def closedSearch : List Char → Bool
  | [] => false
  | c :: rest =>
    (listStartsCI "closed issues".data (c :: rest)
      && lineScanCI "with code changes".data (List.drop 13 (c :: rest)))
    || closedSearch rest

/-- `determine_section_status`: the closed-issues pattern is tried first, the
known-issues pattern second, otherwise no section information. -/
def determineSectionStatus (pageText : String) : Option String :=
  if closedSearch pageText.data then some "closed"
  else if listFindCI "known issues".data pageText.data then some "known"
  else none

/-! ### Version from filename (`extract_version_from_filename`) -/

/-- Numeric value of a list of decimal digit characters, the effect of
Python `int` on the digit string. -/
def charsToNat (l : List Char) : Nat := l.foldl (fun n c => 10 * n + (c.toNat - 48)) 0

/-- The suffix handling and digit-block conversion of
`extract_version_from_filename`, applied to the captured group. -/
def processVersionStr (versionStr : String) : Option String :=
  let parts := versionStr.splitOn "_"
  let baseVersion :=
    if containsSub versionStr "_cd" then (parts.get? 0).getD "" else versionStr
  let cdSuffix : String :=
    if containsSub versionStr "_cd" then "_" ++ (parts.get? 1).getD "" else ""
  let digits := baseVersion.data.takeWhile Char.isDigit
  let letterSuffix := baseVersion.data.drop digits.length
  if 5 ≤ digits.length ∧ digits.all Char.isDigit then
    some ⟨(toString (charsToNat (digits.take 2))).data
          ++ '.' :: (digits.drop 2).take 1
          ++ '.' :: (digits.drop 3).take 2
          ++ letterSuffix ++ cdSuffix.data⟩
  else none

/-- One attempt of the pattern `fastiron-([^-]+)-releasenotes` at the head of
the list: the greedy non-dash run must be nonempty and be followed literally
by `-releasenotes`. -/
def releaseTryAt (l : List Char) : Option String :=
  if listStarts "fastiron-".data l then
    let after := l.drop 9
    let run := after.takeWhile (fun c => !(c = '-'))
    if run.isEmpty then none
    else if listStarts "-releasenotes".data (after.dropWhile (fun c => !(c = '-'))) then
      some ⟨run⟩
    else none
  else none

/-- `re.search` for the filename pattern: leftmost position where the whole
pattern matches. -/
def releaseScan : List Char → Option String
  | [] => none
  | c :: rest =>
    match releaseTryAt (c :: rest) with
    | some v => some v
    | none => releaseScan rest

/-- `extract_version_from_filename` from `src/extract_issues.py`. -/
def extractVersionFromFilename (filename : String) : Option String :=
  match releaseScan filename.data with
  | some versionStr => processVersionStr versionStr
  | none => none

/-! ### Document extractor (`extract_defects_from_pdf`) -/

/-- A per-document defect map: a Python dict in insertion order. -/
abbrev DocMap := List (String × PDefect)

/-- A page as delivered by the external extraction capability: its text and
its raw tables. -/
abbrev Page := String × List (List (List String))

section AListDefs

variable {β : Type}

/-- Dict lookup: the value stored at a key of a string-keyed Python dict,
modelled as an association list holding one entry per key. -/
def aLookup (m : List (String × β)) (k : String) : Option β :=
  (m.find? (fun p => p.1 == k)).map (fun p => p.2)

/-- The key list of a dict, in insertion order. -/
def aKeys (m : List (String × β)) : List String := m.map (fun p => p.1)

/-- Python `m[k] = v`: replace the value at the key's slot if the key is
present, append a new slot otherwise. -/
def aSet : List (String × β) → String → β → List (String × β)
  | [], k, v => [(k, v)]
  | p :: t, k, v => if p.1 = k then (p.1, v) :: t else p :: aSet t k v

/-- In-place mutation of the value stored at an existing key (the effect of
Python `m[k].field = ...` on the dict entry); keys without a slot are left
untouched. -/
def aUpdate : List (String × β) → String → (β → β) → List (String × β)
  | [], _, _ => []
  | p :: t, k, g => if p.1 = k then (p.1, g p.2) :: t else p :: aUpdate t k g

end AListDefs

/-- Python `h[k] = v` on a version-history dict. -/
def updEntry (h : List (String × String)) (kv : String × String) : List (String × String) :=
  aSet h kv.1 kv.2

/-- Dict lookup on a version-history dict. -/
def dLookup (h : List (String × String)) (k : String) : Option String := aLookup h k

/-- The body of the table loop of `extract_defects_from_pdf` for one parsed
defect: insert the record (with empty history) if the id is new, then always
set `version_history[version] = status` on the stored record. -/
def recordDefect (version status : String) (acc : DocMap) (d : PDefect) : DocMap :=
  let acc1 :=
    if acc.any (fun p => p.1 == d.id) then acc
    else acc ++ [(d.id, { d with version_history := [] })]
  aUpdate acc1 d.id
    (fun r => { r with version_history := updEntry r.version_history (version, status) })

/-- The page loop of `extract_defects_from_pdf`: update the section state,
skip the page when no state is set and the text lacks `FI-`, otherwise try
every table and record each successful parse. -/
def extractLoop (version : String) : Option String → DocMap → List Page → DocMap
  | _, acc, [] => acc
  | cur, acc, (pageText, tables) :: rest =>
    let cur1 :=
      match determineSectionStatus pageText with
      | some s => some s
      | none => cur
    if cur1 = none ∧ containsSub pageText "FI-" = false then
      extractLoop version cur1 acc rest
    else
      let acc1 := tables.foldl (fun a tbl =>
        match parseDefectTable tbl with
        | none => a
        | some d => recordDefect version (cur1.getD "known") a d) acc
      extractLoop version cur1 acc1 rest

/-- `extract_defects_from_pdf`: an unparseable filename version yields the
empty map, otherwise the page loop runs with state initialised to none. -/
def extractDefectsFromPdf (filename : String) (pages : List Page) : DocMap :=
  match extractVersionFromFilename filename with
  | none => []
  | some v => extractLoop v none [] pages

/-- Lookup in a per-document map. -/
def dmLookup (m : DocMap) (fi : String) : Option PDefect := aLookup m fi

/-! ### Ledger merge engine (`merge_defects`) -/

/-- `dict.update`: fold the incoming entries over the accumulated history. -/
def histUpdate (h inc : List (String × String)) : List (String × String) :=
  inc.foldl updEntry h

/-- The fill-if-empty policy of the merge: a currently-empty text field takes
the incoming non-empty value, a non-empty field is never overwritten. -/
def fillIfEmpty (old new : String) : String :=
  if old = "" ∧ new ≠ "" then new else old

/-- The `found_in` union of the merge: append each incoming version not
already present, preserving order. -/
def addFoundIn (acc : List String) (vs : List String) : List String :=
  vs.foldl (fun a v => if v ∈ a then a else a ++ [v]) acc

/-- The record seeded on first sight of a defect id: a field-by-field copy. -/
def seedDefect (d : PDefect) : PDefect :=
  { id := d.id, symptom := d.symptom, condition := d.condition,
    workaround := d.workaround, recovery := d.recovery, probability := d.probability,
    technology := d.technology, found_in := d.found_in,
    version_history := d.version_history }

/-- Merging one more per-document record into an existing merged record. -/
def mergeInto (r d : PDefect) : PDefect :=
  { id := r.id,
    symptom := fillIfEmpty r.symptom d.symptom,
    condition := fillIfEmpty r.condition d.condition,
    workaround := fillIfEmpty r.workaround d.workaround,
    recovery := fillIfEmpty r.recovery d.recovery,
    probability := fillIfEmpty r.probability d.probability,
    technology := fillIfEmpty r.technology d.technology,
    found_in := addFoundIn r.found_in d.found_in,
    version_history := histUpdate r.version_history d.version_history }

/-- One item of one per-document map folded into the merged dict (modelled as
a function from defect id to optional record). -/
def mergeStep (acc : String → Option PDefect) (e : String × PDefect) :
    String → Option PDefect :=
  fun k =>
    if k = e.1 then
      some (match acc e.1 with
            | none => seedDefect e.2
            | some r => mergeInto r e.2)
    else acc k

/-- The accumulation phase of `merge_defects`, before lifecycle fields. -/
def mergeMaps (maps : List DocMap) : String → Option PDefect :=
  maps.foldl (fun acc m => m.foldl mergeStep acc) (fun _ => none)

/-- Python string comparison: lexicographic on code points. -/
def charListLe : List Char → List Char → Bool
  | [], _ => true
  | _ :: _, [] => false
  | x :: xs, y :: ys =>
    if x.toNat < y.toNat then true
    else if y.toNat < x.toNat then false
    else charListLe xs ys

/-- Python `a <= b` on strings. -/
def strLeB (a b : String) : Bool := charListLe a.data b.data

/-- Insertion into a sorted list under Python string order. -/
def insertSorted (v : String) : List String → List String
  | [] => [v]
  | x :: xs => if strLeB v x then v :: x :: xs else x :: insertSorted v xs

/-- Python `sorted` on a list of strings (plain lexical string sort — this is
exactly what `merge_defects` uses on version keys). -/
def sortStrings (l : List String) : List String := l.foldr insertSorted []

/-- A completed ledger record, after the lifecycle pass of `merge_defects`. -/
structure MDefect where
  id : String
  symptom : String
  condition : String
  workaround : String
  recovery : String
  probability : String
  found_in : List String
  technology : String
  version_history : List (String × String)
  first_seen : Option String
  fixed_in : Option String
  current_status : String
deriving Repr, DecidableEq

/-- The lifecycle pass of `merge_defects` for one record: sort the history
keys as plain strings, take the earliest as `first_seen`, the first with
status `closed` as `fixed_in`, and the status at the latest as
`current_status` (`unknown` when the history is empty). -/
def finalizeDefect (r : PDefect) : MDefect :=
  let versions := sortStrings (r.version_history.map (fun p => p.1))
  { id := r.id, symptom := r.symptom, condition := r.condition,
    workaround := r.workaround, recovery := r.recovery, probability := r.probability,
    technology := r.technology, found_in := r.found_in,
    version_history := r.version_history,
    first_seen := versions.head?,
    fixed_in := versions.find? (fun v => dLookup r.version_history v == some "closed"),
    current_status :=
      match versions.getLast? with
      | some v => (dLookup r.version_history v).getD "unknown"
      | none => "unknown" }

/-- `merge_defects` end to end: accumulate all per-document maps, then derive
the lifecycle fields of every merged record. -/
def mergeDefects (maps : List DocMap) : String → Option MDefect :=
  fun fi => (mergeMaps maps fi).map finalizeDefect

/-! ### Definitions taken from the claims, for comparison with the code -/

/-- Stated from the claim (C4): a table qualifies iff it has at least 7 rows
and its first row is exactly a 2-cell row whose first cell case-insensitively
equals `issue` and whose second cell starts with `FI-<digits>`. -/
def specDefectGate (t : List (List String)) : Bool :=
  decide (7 ≤ t.length) &&
  match t.head? with
  | some [c1, c2] => pyLower (pyStrip c1) == "issue" && fiDashMatch (pyStrip c2)
  | _ => false

/-- Stated from the claim (C5): the strict version grammar
`^\d{1,2}\.0\.\d{2}([a-z]{0,2}(_cd\d{1,2})?)?$`, case-insensitive. -/
def specStrictVersionGrammar (s : String) : Bool :=
  let l := s.data
  let d1 := l.takeWhile Char.isDigit
  (decide (1 ≤ d1.length) && decide (d1.length ≤ 2)) &&
  match l.dropWhile Char.isDigit with
  | '.' :: '0' :: '.' :: r2 =>
    let d2 := r2.takeWhile Char.isDigit
    let r3 := r2.dropWhile Char.isDigit
    (d2.length == 2) &&
    (let ls := r3.takeWhile isAsciiLetter
     decide (ls.length ≤ 2) &&
     match r3.dropWhile isAsciiLetter with
     | [] => true
     | '_' :: a :: b :: ds =>
       ((a = 'c' || a = 'C') && (b = 'd' || b = 'D')) &&
       (ds.all Char.isDigit && decide (1 ≤ ds.length) && decide (ds.length ≤ 2))
     | _ => false)
  | _ => false

/-- The shape every token captured by the loose in-code pattern
`\d+\.\d+\.\d+[a-z]*(?:_cd\d+)?` (case-insensitive) has; used to state what
validation the code actually performs on `found in` tokens. -/
def looseVersionShape (s : String) : Bool :=
  let l := s.data
  (!(l.takeWhile Char.isDigit).isEmpty) &&
  match l.dropWhile Char.isDigit with
  | c1 :: r2 =>
    (c1 = '.') &&
    ((!(r2.takeWhile Char.isDigit).isEmpty) &&
     match r2.dropWhile Char.isDigit with
     | c2 :: r4 =>
       (c2 = '.') &&
       ((!(r4.takeWhile Char.isDigit).isEmpty) &&
        match (r4.dropWhile Char.isDigit).dropWhile isAsciiLetter with
        | [] => true
        | u :: rest2 =>
          (u = '_') &&
          match rest2 with
          | a :: b :: ds =>
            ((a = 'c' || a = 'C') && (b = 'd' || b = 'D')) &&
            (!ds.isEmpty && ds.all Char.isDigit)
          | _ => false)
     | [] => false)
  | [] => false

/-- Stated from the claim (C1): the integer value of the major component of a
dotted version string. -/
def specMajorOf (s : String) : Nat := charsToNat (s.data.takeWhile Char.isDigit)

/-- Stated from the claim (C7): the ordered list of field labels. -/
def labelOrder : List String :=
  ["symptom", "condition", "workaround", "recovery", "probability", "found in", "technology"]

/-- Stated from the claim (C7): route a row by the first label that occurs as
a substring of the (already lowered and trimmed) first cell; rows matching no
label are ignored. -/
def specApplyRow (d : PDefect) (name value : String) : PDefect :=
  match labelOrder.find? (fun lbl => containsSub name lbl) with
  | some lbl =>
    if lbl = "symptom" then { d with symptom := cleanText value }
    else if lbl = "condition" then { d with condition := cleanText value }
    else if lbl = "workaround" then { d with workaround := cleanText value }
    else if lbl = "recovery" then { d with recovery := cleanText value }
    else if lbl = "probability" then { d with probability := cleanText value }
    else if lbl = "found in" then { d with found_in := findallFI value }
    else { d with technology := cleanText value }
  | none => d

/-! ### The sequence of successful parses of a document

`parseEvents` lists, in document order, every `(effective status, record)`
pair produced by a successful `parse_defect_table` on a non-skipped page.
It is related to `extractLoop` by a proved equivalence below and is used to
state which parse determines which part of the per-document map. -/

/-- The `(status, record)` parse events of a document, in order. -/
def parseEvents : Option String → List Page → List (String × PDefect)
  | _, [] => []
  | cur, (pageText, tables) :: rest =>
    let cur1 :=
      match determineSectionStatus pageText with
      | some s => some s
      | none => cur
    if cur1 = none ∧ containsSub pageText "FI-" = false then
      parseEvents cur1 rest
    else
      (tables.filterMap parseDefectTable).map (fun d => (cur1.getD "known", d))
        ++ parseEvents cur1 rest

/-! ### Derived decomposition definitions used in statements -/

/-- The records contributed for one defect id by the maps, in corpus order. -/
def occsOf (maps : List DocMap) (fi : String) : List PDefect :=
  maps.flatMap (fun m => (m.filter (fun p => p.1 == fi)).map (fun p => p.2))

/-- The merge restricted to one defect id: seed on first sight, merge after. -/
def mergeOcc (acc : Option PDefect) (ds : List PDefect) : Option PDefect :=
  ds.foldl (fun a d =>
    some (match a with
          | none => seedDefect d
          | some r => mergeInto r d)) acc

/-- Folding records into an already-seeded merged record. -/
def foldInto (r : PDefect) (ds : List PDefect) : PDefect := ds.foldl mergeInto r

/-- The `(version, status)` writes contributed by a record sequence, in order. -/
def writesOf (ds : List PDefect) : List (String × String) :=
  ds.flatMap (fun d => d.version_history)

/-- One parse event folded into the per-document map: the body of the table
loop, with the effective status precomputed. -/
def buildStep (version : String) (a : DocMap) (e : String × PDefect) : DocMap :=
  recordDefect version e.1 a e.2

/-- The per-document map built from a list of parse events. -/
def buildFold (version : String) (acc : DocMap) (evs : List (String × PDefect)) : DocMap :=
  evs.foldl (buildStep version) acc

/-- The per-document record built from the parse events of one defect id:
the first event seeds the record (with a reset history), every event sets
`version_history[version]` to its status. -/
def foldOcc (version : String) (a : Option PDefect) (evs : List (String × PDefect)) :
    Option PDefect :=
  evs.foldl (fun a e =>
    some (match a with
          | none => { e.2 with version_history := updEntry [] (version, e.1) }
          | some r => { r with version_history := updEntry r.version_history (version, e.1) })) a

/-- The status of the last parse event in a nonempty event sequence. -/
def lastFst (e : String × PDefect) : List (String × PDefect) → String
  | [] => e.1
  | e2 :: rest => lastFst e2 rest

/-! ### Concrete inputs used by individual claims -/

/-- A well-formed 7-row defect table. -/
def sampleTable : List (List String) :=
  [["Issue", "FI-100205"], ["Symptom", "s"], ["Condition", "c"], ["Workaround", "w"],
   ["Recovery", "r"], ["Probability", "p"], ["Technology", "t"]]

/-- A 5-row table whose first row matches the Issue/FI pattern. -/
def fiveRowTable : List (List String) :=
  [["Issue", "FI-123456"], ["Symptom", "x"], ["Condition", "y"],
   ["Found In", "FI 8.0.90"], ["Technology", "z"]]

/-- A 7-row defect table whose `Found In` value carries a token with a
nonzero minor digit, outside the strict version grammar. -/
def looseTokenTable : List (List String) :=
  [["Issue", "FI-100203"], ["Symptom", "Device reboots"], ["Condition", "c"],
   ["Workaround", "w"], ["Recovery", "r"], ["Probability", "p"],
   ["Found In", "FI 8.1.90"]]

/-- A 7-row defect table whose `Found In` label carries an internal double
space. -/
def spacedLabelTable : List (List String) :=
  [["Issue", "FI-100204"], ["Symptom", "s"], ["Condition", "c"], ["Workaround", "w"],
   ["Recovery", "r"], ["Probability", "p"], ["Found  In", "FI 8.0.90"]]

/-- A document carrying the same defect table once in the closed-issues
section and once in the known-issues section. -/
def twoSectionPages : List Page :=
  [("Closed Issues with Code Changes", [sampleTable]), ("Known Issues", [sampleTable])]

/-- A single-entry per-document record asserting `8.0.95 -> known`. -/
def dA : PDefect :=
  { id := "FI-1", symptom := "s", condition := "", workaround := "", recovery := "",
    probability := "", found_in := [], technology := "",
    version_history := [("8.0.95", "known")] }

/-- A single-entry per-document record asserting `9.0.0 -> closed`. -/
def dB : PDefect := { dA with version_history := [("9.0.0", "closed")] }

/-- A single-entry per-document record asserting `8.0.90 -> known`. -/
def d890 : PDefect := { dA with version_history := [("8.0.90", "known")] }

/-- A single-entry per-document record asserting `10.0.10 -> closed`. -/
def d1010 : PDefect := { dA with version_history := [("10.0.10", "closed")] }

/-- A per-document map observing `FI-1` at `8.0.95`. -/
def mapA : DocMap := [("FI-1", dA)]

/-- A per-document map observing `FI-1` at `9.0.0`. -/
def mapB : DocMap := [("FI-1", dB)]

/-- The record `parse_defect_table` produces for `sampleTable`. -/
def sampleDefect : PDefect :=
  { id := "FI-100205", symptom := "s", condition := "c", workaround := "w",
    recovery := "r", probability := "p", found_in := [], technology := "t",
    version_history := [] }

/-- The record `parse_defect_table` produces for `looseTokenTable`. -/
def looseDefect : PDefect :=
  { id := "FI-100203", symptom := "Device reboots", condition := "c", workaround := "w",
    recovery := "r", probability := "p", found_in := ["8.1.90"], technology := "",
    version_history := [] }

/-- The ledger record obtained by merging `mapA` then `mapB`. -/
def mergedAB : MDefect :=
  { id := "FI-1", symptom := "s", condition := "", workaround := "", recovery := "",
    probability := "", found_in := [], technology := "",
    version_history := [("8.0.95", "known"), ("9.0.0", "closed")],
    first_seen := some "8.0.95", fixed_in := some "9.0.0", current_status := "closed" }

/-! ### Association-list lemmas

Python dicts are modelled as association lists holding one slot per key;
these lemmas characterise lookup, update and key sets. -/

section AListLemmas

variable {β : Type}

theorem aLookup_nil (k : String) : aLookup ([] : List (String × β)) k = none := rfl

theorem aLookup_cons (p : String × β) (t : List (String × β)) (k : String) :
    aLookup (p :: t) k = if p.1 = k then some p.2 else aLookup t k := by
  by_cases h : p.1 = k
  · simp [aLookup, List.find?_cons, h]
  · simp [aLookup, List.find?_cons, h]

theorem aLookup_append (l1 l2 : List (String × β)) (k : String) :
    aLookup (l1 ++ l2) k = (aLookup l1 k).or (aLookup l2 k) := by
  simp only [aLookup, List.find?_append]
  cases List.find? (fun p => p.1 == k) l1 <;> simp [Option.or]

theorem aLookup_aSet (m : List (String × β)) (k : String) (v : β) (j : String) :
    aLookup (aSet m k v) j = if j = k then some v else aLookup m j := by
  induction m with
  | nil =>
    by_cases h : j = k
    · simp [aSet, aLookup_cons, h]
    · show aLookup [(k, v)] j = _
      rw [aLookup_cons, if_neg (fun hc : (k, v).1 = j => h hc.symm), if_neg h, aLookup_nil]
  | cons p t ih =>
    by_cases hpk : p.1 = k
    · simp only [aSet, if_pos hpk]
      by_cases hj : j = k
      · rw [aLookup_cons, if_pos (hpk.trans hj.symm), if_pos hj]
      · rw [aLookup_cons, if_neg (fun hc => hj (hc.symm.trans hpk)), if_neg hj,
          aLookup_cons, if_neg (fun hc => hj (hc.symm.trans hpk))]
    · simp only [aSet, if_neg hpk]
      by_cases hpj : p.1 = j
      · rw [aLookup_cons, if_pos hpj]
        have : ¬ j = k := fun hc => hpk (hpj.trans hc)
        rw [if_neg this, aLookup_cons, if_pos hpj]
      · rw [aLookup_cons, if_neg hpj, ih, aLookup_cons, if_neg hpj]

theorem aKeys_aSet (m : List (String × β)) (k : String) (v : β) :
    aKeys (aSet m k v) = if k ∈ aKeys m then aKeys m else aKeys m ++ [k] := by
  induction m with
  | nil => simp [aSet, aKeys]
  | cons p t ih =>
    by_cases hpk : p.1 = k
    · simp only [aSet, if_pos hpk, aKeys, List.map_cons]
      rw [if_pos (by simp [hpk])]
    · simp only [aSet, if_neg hpk, aKeys, List.map_cons]
      by_cases hmem : k ∈ aKeys t
      · rw [if_pos (by simp [aKeys] at hmem ⊢; exact Or.inr hmem)]
        have := ih
        rw [if_pos hmem] at this
        simp only [aKeys] at this
        rw [this]
      · rw [if_neg (by simp [aKeys] at hmem ⊢; exact ⟨fun hc => hpk hc.symm, hmem⟩)]
        have := ih
        rw [if_neg hmem] at this
        simp only [aKeys] at this
        rw [this]
        simp

theorem aLookup_aUpdate (m : List (String × β)) (k : String) (g : β → β) (j : String) :
    aLookup (aUpdate m k g) j = if j = k then (aLookup m k).map g else aLookup m j := by
  induction m with
  | nil =>
    by_cases h : j = k <;> simp [aUpdate, aLookup_nil, h]
  | cons p t ih =>
    by_cases hpk : p.1 = k
    · simp only [aUpdate, if_pos hpk]
      by_cases hj : j = k
      · rw [aLookup_cons, if_pos (hpk.trans hj.symm), if_pos hj,
          aLookup_cons, if_pos hpk]
        rfl
      · rw [aLookup_cons, if_neg (fun hc => hj (hc.symm.trans hpk)), if_neg hj,
          aLookup_cons, if_neg (fun hc => hj (hc.symm.trans hpk))]
    · simp only [aUpdate, if_neg hpk]
      by_cases hpj : p.1 = j
      · have : ¬ j = k := fun hc => hpk (hpj.trans hc)
        rw [aLookup_cons, if_pos hpj, if_neg this, aLookup_cons, if_pos hpj]
      · rw [aLookup_cons, if_neg hpj, ih]
        by_cases hj : j = k
        · rw [if_pos hj, if_pos hj, aLookup_cons, if_neg hpk]
        · rw [if_neg hj, if_neg hj, aLookup_cons, if_neg hpj]

theorem aKeys_aUpdate (m : List (String × β)) (k : String) (g : β → β) :
    aKeys (aUpdate m k g) = aKeys m := by
  induction m with
  | nil => rfl
  | cons p t ih =>
    by_cases hpk : p.1 = k
    · simp [aUpdate, if_pos hpk, aKeys]
    · simp only [aUpdate, if_neg hpk, aKeys, List.map_cons]
      simpa [aKeys] using ih

theorem aLookup_none_iff_keys (m : List (String × β)) (k : String) :
    aLookup m k = none ↔ k ∉ aKeys m := by
  induction m with
  | nil => simp [aLookup_nil, aKeys]
  | cons p t ih =>
    rw [aLookup_cons]
    by_cases hpk : p.1 = k
    · simp [hpk, aKeys]
    · simp only [if_neg hpk, ih, aKeys, List.map_cons, List.mem_cons]
      constructor
      · intro h hc
        rcases hc with hc | hc
        · exact hpk hc.symm
        · exact h hc
      · intro h hc
        exact h (Or.inr hc)

theorem aLookup_ext (m1 m2 : List (String × β)) (hk : aKeys m1 = aKeys m2)
    (hnd : (aKeys m1).Nodup) (hl : ∀ k, aLookup m1 k = aLookup m2 k) : m1 = m2 := by
  induction m1 generalizing m2 with
  | nil =>
    cases m2 with
    | nil => rfl
    | cons q t2 => simp [aKeys] at hk
  | cons p t1 ih =>
    cases m2 with
    | nil => simp [aKeys] at hk
    | cons q t2 =>
      simp only [aKeys, List.map_cons, List.cons.injEq] at hk
      obtain ⟨hkey, htail⟩ := hk
      have hval : p.2 = q.2 := by
        have h := hl p.1
        rw [aLookup_cons, aLookup_cons, if_pos rfl, if_pos hkey.symm] at h
        exact Option.some.inj h
      have hnd' : (p.1 :: aKeys t1).Nodup := hnd
      have hnd1 : (aKeys t1).Nodup := (List.nodup_cons.mp hnd').2
      have hmem : p.1 ∉ aKeys t1 := (List.nodup_cons.mp hnd').1
      have hl1 : ∀ k, aLookup t1 k = aLookup t2 k := by
        intro k
        by_cases hkp : k = p.1
        · have h1 : aLookup t1 k = none := by
            rw [hkp]; exact (aLookup_none_iff_keys t1 p.1).mpr hmem
          have h2 : aLookup t2 k = none := by
            rw [hkp]
            refine (aLookup_none_iff_keys t2 p.1).mpr ?_
            show p.1 ∉ List.map (fun p => p.1) t2
            rw [← htail]; exact hmem
          rw [h1, h2]
        · have hq : ¬ q.1 = k := by rw [← hkey]; exact fun hc => hkp hc.symm
          have h := hl k
          rw [aLookup_cons, aLookup_cons, if_neg (fun hc => hkp hc.symm), if_neg hq] at h
          exact h
      have ht : t1 = t2 := ih t2 htail hnd1 hl1
      cases p; cases q
      simp only at hkey hval
      simp [hkey, hval, ht]

end AListLemmas

/-! ### `updEntry` and `histUpdate` lemmas -/

theorem updEntry_lookup (h : List (String × String)) (kv : String × String) (k : String) :
    aLookup (updEntry h kv) k = if k = kv.1 then some kv.2 else aLookup h k :=
  aLookup_aSet h kv.1 kv.2 k

theorem updEntry_keys (h : List (String × String)) (kv : String × String) :
    aKeys (updEntry h kv) = if kv.1 ∈ aKeys h then aKeys h else aKeys h ++ [kv.1] :=
  aKeys_aSet h kv.1 kv.2

theorem updEntry_keys_mem (h : List (String × String)) (kv : String × String) (k : String)
    (hk : k ∈ aKeys h) : k ∈ aKeys (updEntry h kv) := by
  rw [updEntry_keys]
  by_cases hm : kv.1 ∈ aKeys h
  · rw [if_pos hm]; exact hk
  · rw [if_neg hm]; exact List.mem_append_left _ hk

theorem updEntry_keys_self (h : List (String × String)) (kv : String × String) :
    kv.1 ∈ aKeys (updEntry h kv) := by
  rw [updEntry_keys]
  by_cases hm : kv.1 ∈ aKeys h
  · rw [if_pos hm]; exact hm
  · rw [if_neg hm]; exact List.mem_append_right _ (List.mem_singleton.mpr rfl)

theorem updEntry_keys_nodup (h : List (String × String)) (kv : String × String)
    (hnd : (aKeys h).Nodup) : (aKeys (updEntry h kv)).Nodup := by
  rw [updEntry_keys]
  by_cases hm : kv.1 ∈ aKeys h
  · rw [if_pos hm]; exact hnd
  · rw [if_neg hm]
    rw [List.nodup_append]
    exact ⟨hnd, List.nodup_singleton _, fun a ha hb =>
      hm ((List.mem_singleton.mp hb) ▸ ha)⟩

theorem histUpdate_cons (h : List (String × String)) (p : String × String)
    (t : List (String × String)) :
    histUpdate h (p :: t) = histUpdate (updEntry h p) t := rfl

theorem histUpdate_lookup (inc : List (String × String)) :
    ∀ (h : List (String × String)) (k : String),
    aLookup (histUpdate h inc) k = (aLookup inc.reverse k).or (aLookup h k) := by
  induction inc with
  | nil => intro h k; rfl
  | cons p t ih =>
    intro h k
    rw [histUpdate_cons, ih, List.reverse_cons, aLookup_append, Option.or_assoc]
    congr 1
    rw [updEntry_lookup]
    by_cases hk : k = p.1
    · rw [if_pos hk, aLookup_cons, if_pos hk.symm]
      rfl
    · rw [if_neg hk, aLookup_cons, if_neg (fun hc => hk hc.symm), aLookup_nil]
      rfl

theorem histUpdate_keys_mem (inc : List (String × String)) :
    ∀ (h : List (String × String)) (k : String), k ∈ aKeys h →
    k ∈ aKeys (histUpdate h inc) := by
  induction inc with
  | nil => intro h k hk; exact hk
  | cons p t ih =>
    intro h k hk
    rw [histUpdate_cons]
    exact ih (updEntry h p) k (updEntry_keys_mem h p k hk)

theorem histUpdate_keys_writes (inc : List (String × String)) :
    ∀ (h : List (String × String)) (p : String × String), p ∈ inc →
    p.1 ∈ aKeys (histUpdate h inc) := by
  induction inc with
  | nil => intro h p hp; cases hp
  | cons q t ih =>
    intro h p hp
    rw [histUpdate_cons]
    rcases List.mem_cons.mp hp with hq | ht
    · subst hq
      exact histUpdate_keys_mem t (updEntry h p) p.1 (updEntry_keys_self h p)
    · exact ih (updEntry h q) p ht

theorem histUpdate_keys_nodup (inc : List (String × String)) :
    ∀ (h : List (String × String)), (aKeys h).Nodup →
    (aKeys (histUpdate h inc)).Nodup := by
  induction inc with
  | nil => intro h hnd; exact hnd
  | cons p t ih =>
    intro h hnd
    rw [histUpdate_cons]
    exact ih (updEntry h p) (updEntry_keys_nodup h p hnd)

theorem histUpdate_append (h w1 w2 : List (String × String)) :
    histUpdate h (w1 ++ w2) = histUpdate (histUpdate h w1) w2 :=
  List.foldl_append _ _ _ _

theorem aSet_append_of_not_mem (m : List (String × String)) (k : String) (v : String)
    (hm : k ∉ aKeys m) : aSet m k v = m ++ [(k, v)] := by
  induction m with
  | nil => rfl
  | cons p t ih =>
    have hpk : ¬ p.1 = k := fun hc => hm (by simp [aKeys, hc])
    simp only [aSet, if_neg hpk, List.cons_append, List.cons.injEq, true_and]
    exact ih (fun hc => hm (by simp [aKeys] at hc ⊢; exact Or.inr hc))

theorem histUpdate_of_nodup (l : List (String × String)) :
    ∀ (h : List (String × String)), (aKeys (h ++ l)).Nodup → histUpdate h l = h ++ l := by
  induction l with
  | nil => intro h _; simp [histUpdate]
  | cons p t ih =>
    intro h hnd
    have hnotin : p.1 ∉ aKeys h := by
      intro hc
      simp only [aKeys, List.map_append, List.map_cons, List.nodup_append] at hnd
      exact hnd.2.2 hc (by simp)
    rw [histUpdate_cons, updEntry, aSet_append_of_not_mem h p.1 p.2 hnotin]
    have := ih (h ++ [(p.1, p.2)]) (by simpa [aKeys] using hnd)
    rw [this]
    simp

/-- Replaying a list of writes over a dict that already reflects them, with
a nodup target, leaves the dict unchanged.  `T` is the target the replay must
reproduce, `H` the current dict; they share keys, and they may disagree only
at keys the remaining writes will set to `T`'s value. -/
theorem histUpdate_restore (w : List (String × String)) :
    ∀ (H T : List (String × String)), (aKeys T).Nodup → aKeys H = aKeys T →
    (∀ p ∈ w, p.1 ∈ aKeys T) →
    (∀ k, aLookup w.reverse k = none → aLookup H k = aLookup T k) →
    (∀ k v, aLookup w.reverse k = some v → aLookup T k = some v) →
    histUpdate H w = T := by
  induction w with
  | nil =>
    intro H T hnd hk _ hnone _
    exact aLookup_ext H T hk (by rw [hk]; exact hnd) (fun k => hnone k rfl)
  | cons p t ih =>
    intro H T hnd hk hin hnone hsome
    rw [histUpdate_cons]
    have hpT : p.1 ∈ aKeys T := hin p (List.mem_cons_self _ _)
    have hkeys1 : aKeys (updEntry H p) = aKeys H := by
      rw [updEntry_keys, if_pos (by rw [hk]; exact hpT)]
    refine ih (updEntry H p) T hnd (hkeys1.trans hk)
      (fun q hq => hin q (List.mem_cons_of_mem _ hq)) ?_ ?_
    · intro k hkn
      rw [updEntry_lookup]
      by_cases hkp : k = p.1
      · rw [if_pos hkp]
        have hfull : aLookup ((p :: t).reverse) k = some p.2 := by
          rw [List.reverse_cons, aLookup_append, hkn, aLookup_cons, if_pos hkp.symm]
          rfl
        exact (hsome k p.2 hfull).symm
      · rw [if_neg hkp]
        apply hnone
        rw [List.reverse_cons, aLookup_append, hkn, aLookup_cons,
          if_neg (fun hc => hkp hc.symm), aLookup_nil]
        rfl
    · intro k v hkv
      apply hsome
      rw [List.reverse_cons, aLookup_append, hkv]
      rfl

/-- Applying the same write list twice is the same as applying it once. -/
theorem histUpdate_idem (h w : List (String × String)) (hnd : (aKeys h).Nodup) :
    histUpdate (histUpdate h w) w = histUpdate h w := by
  refine histUpdate_restore w (histUpdate h w) (histUpdate h w)
    (histUpdate_keys_nodup w h hnd) rfl (fun p hp => histUpdate_keys_writes w h p hp)
    (fun k _ => rfl) ?_
  intro k v hkv
  rw [histUpdate_lookup, hkv]
  rfl

/-! ### Per-defect decomposition of the merge

The merged dict at one defect id depends only on the sequence of records the
per-document maps contribute for that id, in corpus order. -/

theorem seedDefect_eq (d : PDefect) : seedDefect d = d := rfl

theorem mergeOcc_append (acc : Option PDefect) (ds1 ds2 : List PDefect) :
    mergeOcc acc (ds1 ++ ds2) = mergeOcc (mergeOcc acc ds1) ds2 :=
  List.foldl_append _ _ _ _

theorem mergeOcc_some (ds : List PDefect) : ∀ (r : PDefect),
    mergeOcc (some r) ds = some (foldInto r ds) := by
  induction ds with
  | nil => intro r; rfl
  | cons d t ih => intro r; exact ih (mergeInto r d)

theorem docFold_lookup (m : DocMap) : ∀ (acc : String → Option PDefect) (fi : String),
    (m.foldl mergeStep acc) fi
      = mergeOcc (acc fi) ((m.filter (fun p => p.1 == fi)).map (fun p => p.2)) := by
  induction m with
  | nil => intro acc fi; rfl
  | cons e t ih =>
    intro acc fi
    show (t.foldl mergeStep (mergeStep acc e)) fi = _
    rw [ih]
    by_cases hfi : e.1 = fi
    · have hb : (e.1 == fi) = true := beq_iff_eq.mpr hfi
      simp only [List.filter_cons, hb, List.map_cons]
      have h1 : (mergeStep acc e) fi
          = some (match acc fi with
                  | none => seedDefect e.2
                  | some r => mergeInto r e.2) := by
        simp only [mergeStep]
        rw [if_pos hfi.symm, hfi]
      rw [h1]
      rfl
    · have hb : (e.1 == fi) = false := by
        simp only [beq_eq_false_iff_ne, ne_eq]; exact hfi
      simp only [List.filter_cons, hb]
      have h1 : (mergeStep acc e) fi = acc fi := by
        simp only [mergeStep]
        rw [if_neg (fun hc => hfi hc.symm)]
      rw [h1]
      simp

theorem mapsFold_lookup (maps : List DocMap) :
    ∀ (acc : String → Option PDefect) (fi : String),
    (maps.foldl (fun acc m => m.foldl mergeStep acc) acc) fi
      = mergeOcc (acc fi) (occsOf maps fi) := by
  induction maps with
  | nil => intro acc fi; rfl
  | cons m t ih =>
    intro acc fi
    show (t.foldl (fun acc m => m.foldl mergeStep acc) (m.foldl mergeStep acc)) fi = _
    rw [ih, docFold_lookup]
    show _ = mergeOcc (acc fi) ((m.filter (fun p => p.1 == fi)).map (fun p => p.2)
      ++ occsOf t fi)
    rw [mergeOcc_append]

theorem mergeMaps_eq_occs (maps : List DocMap) (fi : String) :
    mergeMaps maps fi = mergeOcc none (occsOf maps fi) :=
  mapsFold_lookup maps (fun _ => none) fi

/-! ### Field behaviour of repeated merging -/

theorem foldInto_cons (r : PDefect) (d : PDefect) (t : List PDefect) :
    foldInto r (d :: t) = foldInto (mergeInto r d) t := rfl

theorem fillIfEmpty_eq_empty (a b : String) (h : fillIfEmpty a b = "") :
    a = "" ∧ b = "" := by
  unfold fillIfEmpty at h
  by_cases hc : a = "" ∧ b ≠ ""
  · rw [if_pos hc] at h; exact absurd h hc.2
  · rw [if_neg hc] at h
    refine ⟨h, ?_⟩
    by_cases hb : b = ""
    · exact hb
    · exact absurd ⟨h, hb⟩ hc

theorem foldInto_field_empty (proj : PDefect → String)
    (hstep : ∀ r d, proj (mergeInto r d) = fillIfEmpty (proj r) (proj d))
    (ds : List PDefect) : ∀ (r : PDefect), proj (foldInto r ds) = "" →
    proj r = "" ∧ ∀ d ∈ ds, proj d = "" := by
  induction ds with
  | nil => intro r h; exact ⟨h, fun d hd => absurd hd (List.not_mem_nil d)⟩
  | cons d t ih =>
    intro r h
    have h' := ih (mergeInto r d) h
    rw [hstep] at h'
    have hfe := fillIfEmpty_eq_empty _ _ h'.1
    refine ⟨hfe.1, fun x hx => ?_⟩
    rcases List.mem_cons.mp hx with hx | hx
    · exact hx ▸ hfe.2
    · exact h'.2 x hx

theorem foldInto_field_stable (proj : PDefect → String)
    (hstep : ∀ r d, proj (mergeInto r d) = fillIfEmpty (proj r) (proj d))
    (ds : List PDefect) : ∀ (r : PDefect),
    (∀ d ∈ ds, fillIfEmpty (proj r) (proj d) = proj r) →
    proj (foldInto r ds) = proj r := by
  induction ds with
  | nil => intro r _; rfl
  | cons d t ih =>
    intro r hall
    have hd : proj (mergeInto r d) = proj r := by
      rw [hstep]; exact hall d (List.mem_cons_self _ _)
    rw [foldInto_cons]
    have := ih (mergeInto r d) (fun x hx => by
      rw [hd]; exact hall x (List.mem_cons_of_mem _ hx))
    rw [this, hd]

theorem foldInto_field_replay (proj : PDefect → String)
    (hstep : ∀ r d, proj (mergeInto r d) = fillIfEmpty (proj r) (proj d))
    (d : PDefect) (t : List PDefect) :
    proj (foldInto (foldInto d t) (d :: t)) = proj (foldInto d t) := by
  apply foldInto_field_stable proj hstep
  intro x hx
  by_cases he : proj (foldInto d t) = ""
  · have hall := foldInto_field_empty proj hstep t d he
    have hxe : proj x = "" := by
      rcases List.mem_cons.mp hx with hx | hx
      · exact hx ▸ hall.1
      · exact hall.2 x hx
    rw [he, hxe]
    unfold fillIfEmpty
    rw [if_neg (fun hc => hc.2 rfl)]
  · unfold fillIfEmpty
    rw [if_neg (fun hc => he hc.1)]

theorem addFoundIn_mem (vs : List String) : ∀ (a : List String) (v : String),
    v ∈ a → v ∈ addFoundIn a vs := by
  induction vs with
  | nil => intro a v hv; exact hv
  | cons u t ih =>
    intro a v hv
    show v ∈ addFoundIn (if u ∈ a then a else a ++ [u]) t
    by_cases hu : u ∈ a
    · rw [if_pos hu]; exact ih a v hv
    · rw [if_neg hu]; exact ih _ v (List.mem_append_left _ hv)

theorem addFoundIn_mem_right (vs : List String) : ∀ (a : List String) (v : String),
    v ∈ vs → v ∈ addFoundIn a vs := by
  induction vs with
  | nil => intro a v hv; cases hv
  | cons u t ih =>
    intro a v hv
    show v ∈ addFoundIn (if u ∈ a then a else a ++ [u]) t
    rcases List.mem_cons.mp hv with hv | hv
    · subst hv
      by_cases hu : v ∈ a
      · rw [if_pos hu]; exact addFoundIn_mem t a v hu
      · rw [if_neg hu]
        exact addFoundIn_mem t _ v (List.mem_append_right _ (List.mem_singleton.mpr rfl))
    · by_cases hu : u ∈ a
      · rw [if_pos hu]; exact ih a v hv
      · rw [if_neg hu]; exact ih _ v hv

theorem addFoundIn_stable (vs : List String) : ∀ (a : List String),
    (∀ v ∈ vs, v ∈ a) → addFoundIn a vs = a := by
  induction vs with
  | nil => intro a _; rfl
  | cons u t ih =>
    intro a hall
    show addFoundIn (if u ∈ a then a else a ++ [u]) t = a
    rw [if_pos (hall u (List.mem_cons_self _ _))]
    exact ih a (fun v hv => hall v (List.mem_cons_of_mem _ hv))

theorem foldInto_found_mem (ds : List PDefect) : ∀ (r : PDefect) (v : String),
    v ∈ r.found_in → v ∈ (foldInto r ds).found_in := by
  induction ds with
  | nil => intro r v hv; exact hv
  | cons d t ih =>
    intro r v hv
    rw [foldInto_cons]
    exact ih (mergeInto r d) v (addFoundIn_mem _ _ _ hv)

theorem foldInto_found_mem_of (ds : List PDefect) : ∀ (r x : PDefect) (v : String),
    x ∈ ds → v ∈ x.found_in → v ∈ (foldInto r ds).found_in := by
  induction ds with
  | nil => intro r x v hx _; cases hx
  | cons d t ih =>
    intro r x v hx hv
    rw [foldInto_cons]
    rcases List.mem_cons.mp hx with hx | hx
    · subst hx
      exact foldInto_found_mem t (mergeInto r x) v (addFoundIn_mem_right _ _ _ hv)
    · exact ih (mergeInto r d) x v hx hv

theorem foldInto_found_stable (ds : List PDefect) : ∀ (r : PDefect),
    (∀ x ∈ ds, ∀ v ∈ x.found_in, v ∈ r.found_in) →
    (foldInto r ds).found_in = r.found_in := by
  induction ds with
  | nil => intro r _; rfl
  | cons d t ih =>
    intro r hall
    rw [foldInto_cons]
    have hd : (mergeInto r d).found_in = r.found_in :=
      addFoundIn_stable _ _ (hall d (List.mem_cons_self _ _))
    have := ih (mergeInto r d) (fun x hx v hv => by
      rw [hd]; exact hall x (List.mem_cons_of_mem _ hx) v hv)
    rw [this, hd]

theorem foldInto_id (ds : List PDefect) : ∀ (r : PDefect), (foldInto r ds).id = r.id := by
  induction ds with
  | nil => intro r; rfl
  | cons d t ih => intro r; exact ih (mergeInto r d)

theorem foldInto_history (ds : List PDefect) : ∀ (r : PDefect),
    (foldInto r ds).version_history = histUpdate r.version_history (writesOf ds) := by
  induction ds with
  | nil => intro r; rfl
  | cons d t ih =>
    intro r
    rw [foldInto_cons, ih]
    show histUpdate (histUpdate r.version_history d.version_history) (writesOf t)
      = histUpdate r.version_history (d.version_history ++ writesOf t)
    rw [histUpdate_append]

theorem pdefect_eq (a b : PDefect) (h1 : a.id = b.id) (h2 : a.symptom = b.symptom)
    (h3 : a.condition = b.condition) (h4 : a.workaround = b.workaround)
    (h5 : a.recovery = b.recovery) (h6 : a.probability = b.probability)
    (h7 : a.found_in = b.found_in) (h8 : a.technology = b.technology)
    (h9 : a.version_history = b.version_history) : a = b := by
  cases a; cases b
  simp_all

/-- Replaying a record sequence over its own fold leaves the fold unchanged,
as long as the seeded history has no duplicate keys (it is a dict copy). -/
theorem foldInto_replay (d : PDefect) (t : List PDefect)
    (hnd : (aKeys d.version_history).Nodup) :
    foldInto (foldInto d t) (d :: t) = foldInto d t := by
  have hR : (foldInto d t).version_history = histUpdate [] (writesOf (d :: t)) := by
    rw [foldInto_history]
    show _ = histUpdate [] (d.version_history ++ writesOf t)
    rw [histUpdate_append]
    rw [histUpdate_of_nodup d.version_history [] (by simpa [aKeys] using hnd)]
    simp
  apply pdefect_eq
  · rw [foldInto_id]
  · exact foldInto_field_replay (fun r => r.symptom) (fun _ _ => rfl) d t
  · exact foldInto_field_replay (fun r => r.condition) (fun _ _ => rfl) d t
  · exact foldInto_field_replay (fun r => r.workaround) (fun _ _ => rfl) d t
  · exact foldInto_field_replay (fun r => r.recovery) (fun _ _ => rfl) d t
  · exact foldInto_field_replay (fun r => r.probability) (fun _ _ => rfl) d t
  · refine foldInto_found_stable (d :: t) (foldInto d t) ?_
    intro x hx v hv
    rcases List.mem_cons.mp hx with hx | hx
    · exact foldInto_found_mem t d v (hx ▸ hv)
    · exact foldInto_found_mem_of t d x v hx hv
  · exact foldInto_field_replay (fun r => r.technology) (fun _ _ => rfl) d t
  · rw [foldInto_history, hR]
    exact histUpdate_idem [] (writesOf (d :: t)) (by simp [aKeys])

/-- Merging the same occurrence list twice equals merging it once. -/
theorem mergeOcc_idem (xs : List PDefect)
    (hnd : ∀ x ∈ xs, (aKeys x.version_history).Nodup) :
    mergeOcc none (xs ++ xs) = mergeOcc none xs := by
  cases xs with
  | nil => rfl
  | cons d t =>
    rw [mergeOcc_append]
    have h1 : mergeOcc none (d :: t) = some (foldInto d t) := by
      show mergeOcc (some (seedDefect d)) t = _
      rw [seedDefect_eq, mergeOcc_some]
    rw [h1, mergeOcc_some, foldInto_replay d t (hnd d (List.mem_cons_self _ _))]

/-! ### Merge support lemmas for the invariant claims -/

theorem aLookup_isSome_of_any {β : Type} (m : List (String × β)) (k : String)
    (h : m.any (fun p => p.1 == k) = true) : (aLookup m k).isSome = true := by
  rcases List.any_eq_true.mp h with ⟨p, hp, hpk⟩
  have hs := (@List.find?_isSome _ m (fun p => p.1 == k)).mpr ⟨p, hp, hpk⟩
  unfold aLookup
  cases hf : List.find? (fun p => p.1 == k) m
  · rw [hf] at hs; cases hs
  · rfl

theorem aLookup_none_of_any_false {β : Type} (m : List (String × β)) (k : String)
    (h : m.any (fun p => p.1 == k) = false) : aLookup m k = none := by
  unfold aLookup
  have : List.find? (fun p => p.1 == k) m = none := by
    rw [List.find?_eq_none]
    intro p hp hc
    rw [List.any_eq_false] at h
    exact h p hp hc
  rw [this]
  rfl

theorem mergeOcc_none_iff (ds : List PDefect) : mergeOcc none ds = none ↔ ds = [] := by
  cases ds with
  | nil => simp [mergeOcc]
  | cons d t =>
    constructor
    · intro h
      have h1 : mergeOcc none (d :: t) = some (foldInto (seedDefect d) t) := mergeOcc_some t _
      rw [h1] at h
      cases h
    · intro h
      cases h

theorem foldInto_history_nil (d : PDefect) (t : List PDefect)
    (hnd : (aKeys d.version_history).Nodup) :
    (foldInto d t).version_history = histUpdate [] (writesOf (d :: t)) := by
  rw [foldInto_history]
  show _ = histUpdate [] (d.version_history ++ writesOf t)
  rw [histUpdate_append,
    histUpdate_of_nodup d.version_history [] (by simpa [aKeys] using hnd)]
  simp

theorem occs_prop {P : PDefect → Prop} (maps : List DocMap) (fi : String)
    (hs : ∀ m ∈ maps, ∀ p ∈ m, P p.2) : ∀ d ∈ occsOf maps fi, P d := by
  intro d hd
  rw [occsOf] at hd
  rcases List.mem_flatMap.mp hd with ⟨m, hm, hdm⟩
  rcases List.mem_map.mp hdm with ⟨p, hp, hpd⟩
  exact hpd ▸ hs m hm p (List.mem_filter.mp hp).1

/-! ### Characterisation of the document extractor -/

theorem tablesFold_eq (version st : String) (tables : List (List (List String))) :
    ∀ acc : DocMap,
    tables.foldl (fun a tbl =>
      match parseDefectTable tbl with
      | none => a
      | some d => recordDefect version st a d) acc
      = buildFold version acc ((tables.filterMap parseDefectTable).map (fun d => (st, d))) := by
  induction tables with
  | nil => intro acc; rfl
  | cons tbl t ih =>
    intro acc
    cases hp : parseDefectTable tbl with
    | none =>
      simp only [List.foldl_cons, List.filterMap_cons, hp]
      exact ih acc
    | some d =>
      simp only [List.foldl_cons, List.filterMap_cons, hp, List.map_cons]
      exact ih (recordDefect version st acc d)

theorem extractLoop_eq (pages : List Page) :
    ∀ (version : String) (cur : Option String) (acc : DocMap),
    extractLoop version cur acc pages = buildFold version acc (parseEvents cur pages) := by
  induction pages with
  | nil => intro v cur acc; rfl
  | cons pg rest ih =>
    intro v cur acc
    obtain ⟨pageText, tables⟩ := pg
    simp only [extractLoop, parseEvents]
    by_cases hskip :
        ((match determineSectionStatus pageText with
          | some s => some s
          | none => cur) = none ∧ containsSub pageText "FI-" = false)
    · rw [if_pos hskip, if_pos hskip]
      exact ih v _ acc
    · rw [if_neg hskip, if_neg hskip]
      rw [ih, tablesFold_eq]
      show buildFold v (buildFold v acc _) _ = buildFold v acc (_ ++ _)
      rw [buildFold, buildFold, buildFold, List.foldl_append]

theorem recordDefect_lookup (version st : String) (acc : DocMap) (d : PDefect) (fi : String) :
    dmLookup (recordDefect version st acc d) fi
      = if fi = d.id then
          some (match dmLookup acc d.id with
                | none => { d with version_history := updEntry [] (version, st) }
                | some r => { r with version_history := updEntry r.version_history (version, st) })
        else dmLookup acc fi := by
  unfold recordDefect dmLookup
  by_cases hmem : acc.any (fun p => p.1 == d.id) = true
  · simp only [if_pos hmem]
    rw [aLookup_aUpdate]
    by_cases hfi : fi = d.id
    · rw [if_pos hfi, if_pos hfi]
      have hsome := aLookup_isSome_of_any acc d.id hmem
      cases hl : aLookup acc d.id
      · rw [hl] at hsome; cases hsome
      · rfl
    · rw [if_neg hfi, if_neg hfi]
  · simp only [if_neg hmem]
    have hnone : aLookup acc d.id = none :=
      aLookup_none_of_any_false acc d.id (Bool.eq_false_iff.mpr hmem)
    rw [aLookup_aUpdate]
    by_cases hfi : fi = d.id
    · rw [if_pos hfi, if_pos hfi, aLookup_append, hnone, aLookup_cons, if_pos rfl]
      rfl
    · rw [if_neg hfi, if_neg hfi, aLookup_append, aLookup_cons,
        if_neg (fun hc => hfi hc.symm), aLookup_nil, Option.or_none]

theorem buildFold_lookup (evs : List (String × PDefect)) :
    ∀ (version : String) (acc : DocMap) (fi : String),
    dmLookup (buildFold version acc evs) fi
      = foldOcc version (dmLookup acc fi) (evs.filter (fun e => e.2.id == fi)) := by
  induction evs with
  | nil => intro v acc fi; rfl
  | cons e t ih =>
    intro v acc fi
    show dmLookup (buildFold v (buildStep v acc e) t) fi = _
    rw [ih]
    by_cases hid : e.2.id = fi
    · have hb : (e.2.id == fi) = true := beq_iff_eq.mpr hid
      simp only [List.filter_cons, hb, if_true]
      have h1 : dmLookup (buildStep v acc e) fi
          = some (match dmLookup acc e.2.id with
                  | none => { e.2 with version_history := updEntry [] (v, e.1) }
                  | some r => { r with version_history := updEntry r.version_history (v, e.1) }) := by
        rw [buildStep, recordDefect_lookup, if_pos hid.symm]
      rw [h1, hid]
      rfl
    · have hb : (e.2.id == fi) = false := by
        simp only [beq_eq_false_iff_ne, ne_eq]; exact hid
      simp only [List.filter_cons, hb]
      have h1 : dmLookup (buildStep v acc e) fi = dmLookup acc fi := by
        rw [buildStep, recordDefect_lookup, if_neg (fun hc => hid hc.symm)]
      rw [h1]
      simp

theorem updEntry_single (v s st : String) : updEntry [(v, s)] (v, st) = [(v, st)] := by
  simp [updEntry, aSet]

theorem foldOcc_closed (rest : List (String × PDefect)) :
    ∀ (version : String) (d1 : PDefect) (e : String × PDefect),
    foldOcc version (some { d1 with version_history := [(version, e.1)] }) rest
      = some { d1 with version_history := [(version, lastFst e rest)] } := by
  induction rest with
  | nil => intro v d1 e; rfl
  | cons e2 t ih =>
    intro v d1 e
    show foldOcc v
      (some { d1 with version_history := updEntry [(v, e.1)] (v, e2.1) }) t = _
    rw [updEntry_single]
    exact ih v d1 e2

theorem foldOcc_none_closed (version st1 : String) (d1 : PDefect)
    (rest : List (String × PDefect)) :
    foldOcc version none ((st1, d1) :: rest)
      = some { d1 with version_history := [(version, lastFst (st1, d1) rest)] } :=
  foldOcc_closed rest version d1 (st1, d1)

/-! ### Loose-grammar soundness of the found-in scanner -/


theorem takeWhile_append_all {p : Char → Bool} (a : List Char)
    (ha : ∀ c ∈ a, p c = true) (r : List Char)
    (hr : ∀ x, r.head? = some x → p x = false) :
    (a ++ r).takeWhile p = a ∧ (a ++ r).dropWhile p = r := by
  induction a with
  | nil =>
    simp only [List.nil_append]
    cases r with
    | nil => simp
    | cons x t =>
      have hx := hr x rfl
      simp [List.takeWhile_cons, List.dropWhile_cons, hx]
  | cons c a2 ih =>
    have hc := ha c (List.mem_cons_self _ _)
    have ih2 := ih (fun c hc => ha c (List.mem_cons_of_mem _ hc))
    simp only [List.cons_append, List.takeWhile_cons, List.dropWhile_cons, hc, if_true]
    exact ⟨by rw [ih2.1], ih2.2⟩

theorem dropWhile_head_not {p : Char → Bool} (l : List Char) :
    ∀ x, (l.dropWhile p).head? = some x → p x = false := by
  induction l with
  | nil => intro x h; cases h
  | cons c t ih =>
    intro x h
    rw [List.dropWhile_cons] at h
    by_cases hc : p c = true
    · rw [if_pos hc] at h; exact ih x h
    · rw [if_neg hc] at h
      simp only [List.head?_cons, Option.some.injEq] at h
      exact h ▸ Bool.eq_false_iff.mpr hc

theorem nonEmpty_bang (d : List Char) (h : d.isEmpty = false) : (!d.isEmpty) = true := by
  rw [h]; rfl

theorem looseShape_build (d1 d2 d3 r5 : List Char)
    (h1 : ∀ c ∈ d1, Char.isDigit c = true) (hn1 : d1.isEmpty = false)
    (h2 : ∀ c ∈ d2, Char.isDigit c = true) (hn2 : d2.isEmpty = false)
    (h3 : ∀ c ∈ d3, Char.isDigit c = true) (hn3 : d3.isEmpty = false)
    (hr5 : ∀ x, r5.head? = some x → Char.isDigit x = false)
    (htm : (match r5.dropWhile isAsciiLetter with
            | [] => true
            | u :: rest2 =>
              (u = '_') &&
              match rest2 with
              | a :: b :: ds =>
                ((a = 'c' || a = 'C') && (b = 'd' || b = 'D')) &&
                (!ds.isEmpty && ds.all Char.isDigit)
              | _ => false) = true) :
    looseVersionShape ⟨d1 ++ '.' :: (d2 ++ '.' :: (d3 ++ r5))⟩ = true := by
  obtain ⟨ht1, hd1⟩ := takeWhile_append_all d1 h1 ('.' :: (d2 ++ '.' :: (d3 ++ r5)))
    (fun x hx => by
      simp only [List.head?_cons, Option.some.injEq] at hx
      subst hx; decide)
  obtain ⟨ht2, hd2⟩ := takeWhile_append_all d2 h2 ('.' :: (d3 ++ r5))
    (fun x hx => by
      simp only [List.head?_cons, Option.some.injEq] at hx
      subst hx; decide)
  obtain ⟨ht3, hd3⟩ := takeWhile_append_all d3 h3 r5 hr5
  unfold looseVersionShape
  dsimp only
  rw [ht1, hd1]
  dsimp only
  rw [ht2, hd2]
  dsimp only
  rw [ht3, hd3]
  rw [hn1, hn2, hn3]
  simp only [Bool.not_false, Bool.true_and, decide_True]
  exact htm


theorem head_of_takeWhile {p : Char → Bool} (l : List Char) (x : Char)
    (h : (l.takeWhile p).head? = some x) : l.head? = some x := by
  cases l with
  | nil => cases h
  | cons c t =>
    rw [List.takeWhile_cons] at h
    by_cases pc : p c = true
    · rw [if_pos pc] at h
      simpa using h
    · rw [if_neg pc] at h
      cases h

theorem dropWhile_all {p : Char → Bool} (l : List Char)
    (h : ∀ c ∈ l, p c = true) : l.dropWhile p = [] :=
  List.dropWhile_eq_nil_iff.mpr h

theorem matchFIAt_shape (l tok rest : List Char)
    (hm : matchFIAt l = some (tok, rest)) : looseVersionShape ⟨tok⟩ = true := by
  unfold matchFIAt at hm
  split at hm
  next f i rest0 =>
    split at hm
    next hfi =>
      try dsimp only at hm
      split at hm
      next he1 => cases hm
      next he1 =>
        split at hm
        next r2 hdrop1 =>
          split at hm
          next he2 => cases hm
          next he2 =>
            split at hm
            next r4 hdrop2 =>
              split at hm
              next he3 => cases hm
              next he3 =>
                try dsimp only at hm
                have hb1 : (List.takeWhile Char.isDigit (List.dropWhile isPyWS rest0)).isEmpty = false :=
                  Bool.eq_false_iff.mpr he1
                have hb2 : (List.takeWhile Char.isDigit r2).isEmpty = false :=
                  Bool.eq_false_iff.mpr he2
                have hb3 : (List.takeWhile Char.isDigit r4).isEmpty = false :=
                  Bool.eq_false_iff.mpr he3
                have hm1 : ∀ c ∈ List.takeWhile Char.isDigit (List.dropWhile isPyWS rest0),
                    Char.isDigit c = true := fun c hc => List.mem_takeWhile_imp hc
                have hm2 : ∀ c ∈ List.takeWhile Char.isDigit r2, Char.isDigit c = true :=
                  fun c hc => List.mem_takeWhile_imp hc
                have hm3 : ∀ c ∈ List.takeWhile Char.isDigit r4, Char.isDigit c = true :=
                  fun c hc => List.mem_takeWhile_imp hc
                have hlsall : ∀ c ∈ List.takeWhile isAsciiLetter (List.dropWhile Char.isDigit r4),
                    isAsciiLetter c = true := fun c hc => List.mem_takeWhile_imp hc
                have hr5head : ∀ x, (List.dropWhile Char.isDigit r4).head? = some x →
                    Char.isDigit x = false := fun x hx => dropWhile_head_not r4 x hx
                have hcore : looseVersionShape
                    ⟨List.takeWhile Char.isDigit (List.dropWhile isPyWS rest0) ++
                      '.' :: (List.takeWhile Char.isDigit r2 ++
                        '.' :: (List.takeWhile Char.isDigit r4 ++
                          List.takeWhile isAsciiLetter (List.dropWhile Char.isDigit r4)))⟩ = true := by
                  refine looseShape_build _ _ _ _ hm1 hb1 hm2 hb2 hm3 hb3 ?_ ?_
                  · intro x hx
                    exact hr5head x (head_of_takeWhile _ x hx)
                  · rw [dropWhile_all _ hlsall]
                split at hm
                next a b r7 hr6 =>
                  split at hm
                  next hcd =>
                    split at hm
                    next hds =>
                      have h := Option.some.inj hm
                      rw [Prod.mk.injEq] at h
                      refine h.1 ▸ ?_
                      simpa [List.append_assoc, List.cons_append] using hcore
                    next hds =>
                      have h := Option.some.inj hm
                      rw [Prod.mk.injEq] at h
                      refine h.1 ▸ ?_
                      have hdsne : (List.takeWhile Char.isDigit r7).isEmpty = false :=
                        Bool.eq_false_iff.mpr hds
                      have hdsall : ∀ c ∈ List.takeWhile Char.isDigit r7, Char.isDigit c = true :=
                        fun c hc => List.mem_takeWhile_imp hc
                      have hshape := looseShape_build
                        (List.takeWhile Char.isDigit (List.dropWhile isPyWS rest0))
                        (List.takeWhile Char.isDigit r2)
                        (List.takeWhile Char.isDigit r4)
                        (List.takeWhile isAsciiLetter (List.dropWhile Char.isDigit r4) ++
                          '_' :: a :: b :: List.takeWhile Char.isDigit r7)
                        hm1 hb1 hm2 hb2 hm3 hb3 ?_ ?_
                      · simpa [List.append_assoc, List.cons_append] using hshape
                      · intro x hx
                        cases hls : List.takeWhile isAsciiLetter (List.dropWhile Char.isDigit r4) with
                        | nil =>
                          rw [hls] at hx
                          simp only [List.nil_append, List.head?_cons, Option.some.injEq] at hx
                          rw [← hx]
                          decide
                        | cons c t =>
                          rw [hls] at hx
                          simp only [List.cons_append, List.head?_cons, Option.some.injEq] at hx
                          rw [← hx]
                          refine hr5head c (@head_of_takeWhile isAsciiLetter (List.dropWhile Char.isDigit r4) c ?_)
                          rw [hls]
                          rfl
                      · obtain ⟨-, hdrop⟩ := takeWhile_append_all
                          (List.takeWhile isAsciiLetter (List.dropWhile Char.isDigit r4))
                          hlsall ('_' :: a :: b :: List.takeWhile Char.isDigit r7)
                          (fun x hx => by
                            simp only [List.head?_cons, Option.some.injEq] at hx
                            subst hx; decide)
                        rw [hdrop]
                        simp only [hcd, hdsne, Bool.not_false, List.all_eq_true]
                        simp [hdsall]
                  next hcd =>
                    have h := Option.some.inj hm
                    rw [Prod.mk.injEq] at h
                    refine h.1 ▸ ?_
                    simpa [List.append_assoc, List.cons_append] using hcore
                next hr6 =>
                  have h := Option.some.inj hm
                  rw [Prod.mk.injEq] at h
                  refine h.1 ▸ ?_
                  simpa [List.append_assoc, List.cons_append] using hcore
            next hdef => cases hm
        next hdef => cases hm
    next => cases hm
  next => cases hm

theorem scanFI_shape (fuel : Nat) : ∀ (l : List Char) (tok : String),
    tok ∈ scanFI fuel l → looseVersionShape tok = true := by
  induction fuel with
  | zero => intro l tok h; cases h
  | succ n ih =>
    intro l tok h
    cases l with
    | nil => cases h
    | cons c rest =>
      cases hm : matchFIAt (c :: rest) with
      | some pr =>
        obtain ⟨t, after⟩ := pr
        rw [scanFI, hm] at h
        rcases List.mem_cons.mp h with h | h
        · subst h
          exact matchFIAt_shape (c :: rest) t after hm
        · exact ih after tok h
      | none =>
        rw [scanFI, hm] at h
        exact ih rest tok h

theorem findallFI_shape (s : String) (tok : String) (h : tok ∈ findallFI s) :
    looseVersionShape tok = true :=
  scanFI_shape s.data.length s.data tok h

theorem parseRow_found (d : PDefect) (row : List String) :
    (parseRow d row).found_in = d.found_in ∨
    ∃ v, (parseRow d row).found_in = findallFI v := by
  cases row with
  | nil => exact Or.inl rfl
  | cons c1 tail =>
    cases tail with
    | nil => exact Or.inl rfl
    | cons c2 rest =>
      simp only [parseRow]
      split
      · exact Or.inl rfl
      split
      · exact Or.inl rfl
      split
      · exact Or.inl rfl
      split
      · exact Or.inl rfl
      split
      · exact Or.inl rfl
      split
      · exact Or.inr ⟨pyStrip c2, rfl⟩
      split
      · exact Or.inl rfl
      · exact Or.inl rfl

theorem foldRow_found (rows : List (List String)) : ∀ (d0 : PDefect),
    (d0.found_in = [] ∨ ∃ v, d0.found_in = findallFI v) →
    ((rows.foldl parseRow d0).found_in = [] ∨
     ∃ v, (rows.foldl parseRow d0).found_in = findallFI v) := by
  induction rows with
  | nil => intro d0 h; exact h
  | cons row t ih =>
    intro d0 h
    refine ih (parseRow d0 row) ?_
    rcases parseRow_found d0 row with hr | ⟨v, hr⟩
    · rw [hr]; exact h
    · exact Or.inr ⟨v, hr⟩

theorem parse_found_provenance (t : List (List String)) (d : PDefect)
    (h : parseDefectTable t = some d) :
    d.found_in = [] ∨ ∃ v, d.found_in = findallFI v := by
  unfold parseDefectTable at h
  split at h
  · split at h
    next => cases h
    next fi hfi =>
      dsimp only at h
      split at h
      next hsym => cases h
      next hsym =>
        have hd := Option.some.inj h
        subst hd
        exact foldRow_found t (emptyDefect fi) (Or.inl rfl)
  · cases h

theorem parseRow_eq_specApplyRow (d : PDefect) (c1 c2 : String) (rest : List String) :
    parseRow d (c1 :: c2 :: rest)
      = specApplyRow d (pyLower (pyStrip c1)) (pyStrip c2) := by
  simp only [parseRow, specApplyRow, labelOrder, List.find?]
  by_cases h1 : containsSub (pyLower (pyStrip c1)) "symptom" = true
  · simp [h1]
  by_cases h2 : containsSub (pyLower (pyStrip c1)) "condition" = true
  · simp [h1, h2]
  by_cases h3 : containsSub (pyLower (pyStrip c1)) "workaround" = true
  · simp [h1, h2, h3]
  by_cases h4 : containsSub (pyLower (pyStrip c1)) "recovery" = true
  · simp [h1, h2, h3, h4]
  by_cases h5 : containsSub (pyLower (pyStrip c1)) "probability" = true
  · simp [h1, h2, h3, h4, h5]
  by_cases h6 : containsSub (pyLower (pyStrip c1)) "found in" = true
  · simp [h1, h2, h3, h4, h5, h6]
  by_cases h7 : containsSub (pyLower (pyStrip c1)) "technology" = true
  · simp [h1, h2, h3, h4, h5, h6, h7]
  · simp [h1, h2, h3, h4, h5, h6, h7]

theorem aKeys_mem_iff_lookup {β : Type} (m : List (String × β)) (k : String) :
    k ∈ aKeys m ↔ aLookup m k ≠ none := by
  rw [Ne, aLookup_none_iff_keys]
  exact not_not.symm

theorem mem_aKeys_histUpdate_nil (w : List (String × String)) (k : String) :
    k ∈ aKeys (histUpdate [] w) ↔ k ∈ aKeys w := by
  have h1 : aLookup (histUpdate [] w) k = aLookup w.reverse k := by
    rw [histUpdate_lookup]
    exact Option.or_none
  rw [aKeys_mem_iff_lookup, aKeys_mem_iff_lookup, h1, Ne, Ne,
    aLookup_none_iff_keys, aLookup_none_iff_keys,
    show aKeys w.reverse = (aKeys w).reverse from by simp [aKeys],
    List.mem_reverse]

/-! ### Claim theorems -/

/-- C1: the claim says `first_seen`, `fixed_in` and `current_status` are
derived under the canonical comparator that compares major as an integer
(`8.0.90` before `10.0.10`).  The code sorts the version keys as plain
strings: at a history holding `8.0.90 -> known` and `10.0.10 -> closed` it
reports `first_seen = 10.0.10` and `current_status = known`, although the
integer-major order puts `8.0.90` first. -/
theorem c1_lexical_sort_divergence :
    (mergeDefects [[("FI-1", d890)], [("FI-1", d1010)]] "FI-1").map
        (fun r => (r.first_seen, r.fixed_in, r.current_status))
      = some (some "10.0.10", some "10.0.10", "known")
    ∧ specMajorOf "8.0.90" < specMajorOf "10.0.10" :=
  ⟨by decide, by decide⟩

/-- C2: when every per-document entry carries exactly one `(version, status)`
pair, a defect is in the merged ledger iff some document mentions it, its
`versionHistory` keys are exactly the versions asserted for it with no
duplicate key, and the status stored at each version is the one asserted by
the last map in the sequence that asserts that version. -/
theorem c2_history_is_last_writer_union (maps : List DocMap) (fi v : String)
    (hs : ∀ m ∈ maps, ∀ p ∈ m, ∃ ver st, (p.2).version_history = [(ver, st)]) :
    (mergeDefects maps fi = none ↔ occsOf maps fi = []) ∧
    (∀ r, mergeDefects maps fi = some r →
      (aKeys r.version_history).Nodup ∧
      (∀ k, k ∈ aKeys r.version_history ↔ k ∈ aKeys (writesOf (occsOf maps fi))) ∧
      dLookup r.version_history v = dLookup (writesOf (occsOf maps fi)).reverse v) := by
  have hmm : mergeMaps maps fi = mergeOcc none (occsOf maps fi) := mergeMaps_eq_occs maps fi
  cases hocc : occsOf maps fi with
  | nil =>
    rw [hocc] at hmm
    constructor
    · constructor
      · intro _; rfl
      · intro _
        show (mergeMaps maps fi).map finalizeDefect = none
        rw [hmm]; rfl
    · intro r hr
      exfalso
      have h2 : (mergeMaps maps fi).map finalizeDefect = some r := hr
      rw [hmm] at h2
      simp [mergeOcc] at h2
  | cons d t =>
    have hP := @occs_prop (fun d => ∃ ver st, d.version_history = [(ver, st)]) maps fi hs
    rw [hocc] at hP
    obtain ⟨ver, st, hdh⟩ := hP d (List.mem_cons_self _ _)
    have hnd : (aKeys d.version_history).Nodup := by
      rw [hdh]; simp [aKeys]
    have hsome : mergeOcc none (d :: t) = some (foldInto d t) := by
      show mergeOcc (some (seedDefect d)) t = _
      rw [seedDefect_eq, mergeOcc_some]
    rw [hocc, hsome] at hmm
    constructor
    · constructor
      · intro hnone
        exfalso
        have h2 : (mergeMaps maps fi).map finalizeDefect = none := hnone
        rw [hmm] at h2
        cases h2
      · intro hc; cases hc
    · intro r hr
      have h2 : (mergeMaps maps fi).map finalizeDefect = some r := hr
      rw [hmm] at h2
      have hr2 : finalizeDefect (foldInto d t) = r := Option.some.inj h2
      have hhist : r.version_history = (foldInto d t).version_history := by
        rw [← hr2]
        rfl
      have hW : (foldInto d t).version_history = histUpdate [] (writesOf (d :: t)) :=
        foldInto_history_nil d t hnd
      refine ⟨?_, ?_, ?_⟩
      · rw [hhist, hW]
        exact histUpdate_keys_nodup _ [] (by simp [aKeys])
      · intro k
        rw [hhist, hW]
        exact mem_aKeys_histUpdate_nil _ k
      · show aLookup r.version_history v = aLookup (writesOf (d :: t)).reverse v
        rw [hhist, hW, histUpdate_lookup]
        exact Option.or_none

/-- C2 witness: the conclusion of `c2_history_is_last_writer_union` at the
two concrete maps `mapA` and `mapB` for defect `FI-1` and version `9.0.0`. -/
theorem c2_history_witness :
    (aKeys mergedAB.version_history).Nodup ∧
    dLookup mergedAB.version_history "9.0.0"
      = dLookup (writesOf (occsOf [mapA, mapB] "FI-1")).reverse "9.0.0" := by
  have hs : ∀ m ∈ [mapA, mapB], ∀ p ∈ m, ∃ ver st, (p.2).version_history = [(ver, st)] := by
    intro m hm p hp
    simp only [List.mem_cons, List.not_mem_nil, or_false] at hm
    rcases hm with hm | hm <;> subst hm <;>
      simp only [mapA, mapB, List.mem_cons, List.not_mem_nil, or_false] at hp <;>
      subst hp <;> exact ⟨_, _, rfl⟩
  have h := (c2_history_is_last_writer_union [mapA, mapB] "FI-1" "9.0.0" hs).2
    mergedAB (by decide)
  exact ⟨h.1, h.2.2⟩

/-- C3 counterexample: the same table appears in the closed-issues section
and again in the known-issues section of one document.  The first parse
asserted `closed`, yet the per-document map records `known`: a later
duplicate overwrites the status, so first-writer-wins is false for the
recorded status. -/
theorem c3_first_writer_counterexample :
    (dmLookup (extractDefectsFromPdf "fastiron-08090-releasenotes-1.0.pdf" twoSectionPages)
        "FI-100205").map (fun d => d.version_history) = some [("8.0.90", "known")]
    ∧ (parseEvents none twoSectionPages).map (fun e => e.1) = ["closed", "known"] :=
  ⟨by decide, by decide⟩

/-- C3 as amended: when the same defect id is parsed from several tables in
one document, the record keeps the non-history fields of the first
successfully parsed table, but the per-document status is re-recorded by
every later duplicate, so the last duplicate's section status wins. -/
theorem c3_first_fields_last_status (filename : String) (pages : List Page)
    (v fi st1 : String) (d1 : PDefect) (restEv : List (String × PDefect))
    (hv : extractVersionFromFilename filename = some v)
    (hev : (parseEvents none pages).filter (fun e => e.2.id == fi) = (st1, d1) :: restEv) :
    dmLookup (extractDefectsFromPdf filename pages) fi
      = some { d1 with version_history := [(v, lastFst (st1, d1) restEv)] } := by
  unfold extractDefectsFromPdf
  rw [hv]
  show dmLookup (extractLoop v none [] pages) fi = _
  rw [extractLoop_eq, buildFold_lookup, hev]
  exact foldOcc_none_closed v st1 d1 restEv

/-- C3 witness: `c3_first_fields_last_status` applied to the two-section
document; the closed-section parse supplies the fields, the known-section
duplicate supplies the final status. -/
theorem c3_first_fields_witness :
    dmLookup (extractDefectsFromPdf "fastiron-08090-releasenotes-1.0.pdf" twoSectionPages)
        "FI-100205"
      = some { sampleDefect with version_history := [("8.0.90", "known")] } :=
  c3_first_fields_last_status "fastiron-08090-releasenotes-1.0.pdf" twoSectionPages
    "8.0.90" "FI-100205" "closed" sampleDefect [("known", sampleDefect)]
    (by decide) (by decide)

/-- C4: a table is classified as a defect table exactly under the claimed
structural gate (at least 7 rows, first row a 2-cell `issue`/`FI-<digits>`
row), and any table failing the gate parses to null. -/
theorem c4_defect_table_gate (t : List (List String)) :
    isDefectTable t = specDefectGate t
    ∧ (specDefectGate t = false → parseDefectTable t = none) := by
  have hgate : isDefectTable t = specDefectGate t := by
    cases t with
    | nil => rfl
    | cons firstRow rest =>
      simp only [isDefectTable, specDefectGate, List.head?_cons]
      by_cases hlen : (firstRow :: rest).length < 7
      · rw [if_pos hlen,
          show decide (7 ≤ (firstRow :: rest).length) = false from
            decide_eq_false (Nat.not_le.mpr hlen)]
        rw [Bool.false_and]
      · rw [if_neg hlen,
          show decide (7 ≤ (firstRow :: rest).length) = true from
            decide_eq_true (Nat.le_of_not_lt hlen)]
        rw [Bool.true_and]
        rcases firstRow with _ | ⟨c1, _ | ⟨c2, _ | ⟨c3, tl⟩⟩⟩ <;> rfl
  refine ⟨hgate, ?_⟩
  intro hfalse
  unfold parseDefectTable
  rw [if_neg]
  rw [hgate, hfalse]
  exact Bool.false_ne_true

/-- C4 witness: the 5-row table with a matching first row fails the gate and
parses to null. -/
theorem c4_gate_witness :
    specDefectGate fiveRowTable = false ∧ parseDefectTable fiveRowTable = none :=
  ⟨by decide, (c4_defect_table_gate fiveRowTable).2 (by decide)⟩

/-- C5 counterexample: the token `8.1.90` in a `Found In` field fails the
strict grammar (its minor digit is not 0) yet is kept in `found_in`, so the
claimed strict validation does not happen. -/
theorem c5_strict_grammar_counterexample :
    (parseDefectTable looseTokenTable).map (fun d => d.found_in) = some ["8.1.90"]
    ∧ specStrictVersionGrammar "8.1.90" = false :=
  ⟨by decide, by decide⟩

/-- C5 as amended: every token kept in a parsed record's `found_in` list
matches the loose extraction pattern `\d+\.\d+\.\d+[a-z]*(_cd\d+)?`
(case-insensitive); no strict-grammar validation is applied beyond that. -/
theorem c5_loose_tokens_kept (t : List (List String)) (d : PDefect) (tok : String)
    (hp : parseDefectTable t = some d) (htok : tok ∈ d.found_in) :
    looseVersionShape tok = true := by
  rcases parse_found_provenance t d hp with h | ⟨v, h⟩
  · rw [h] at htok; cases htok
  · rw [h] at htok
    exact findallFI_shape v tok htok

/-- C5 witness: `c5_loose_tokens_kept` at the concrete table whose kept
token is `8.1.90`. -/
theorem c5_loose_tokens_witness :
    parseDefectTable looseTokenTable = some looseDefect
    ∧ looseVersionShape "8.1.90" = true :=
  ⟨by decide, c5_loose_tokens_kept looseTokenTable looseDefect "8.1.90" (by decide) (by decide)⟩

/-- C6 counterexample: a page with no section heading and no `FI-` in its
text is skipped entirely, so a perfectly parseable defect table on it is
never attempted or recorded — "every raw table on every page is attempted"
is false. -/
theorem c6_page_skip_counterexample :
    (parseDefectTable sampleTable).isSome = true
    ∧ extractDefectsFromPdf "fastiron-08090-releasenotes-1.0.pdf" [("", [sampleTable])] = [] :=
  ⟨by decide, by decide⟩

theorem lastFst_mem : ∀ (rest : List (String × PDefect)) (e : String × PDefect),
    ∃ p, p ∈ e :: rest ∧ p.1 = lastFst e rest := by
  intro rest
  induction rest with
  | nil =>
    intro e
    exact ⟨e, List.mem_cons_self _ _, rfl⟩
  | cons e2 t ih =>
    intro e
    obtain ⟨p, hp, hl⟩ := ih e2
    exact ⟨p, List.mem_cons_of_mem _ hp, hl⟩

/-- C6 as amended: `parseEvents` enumerates exactly the successful table
parses, each tagged with the section state current at that parse
(`cur1.getD "known"` in its definition, i.e. defaulting to `known`), and
skips a page only when it has no section state and no `FI-` in its text.
For every parse event `(st, d)`, the extractor's map holds at `d.id` a
record whose history is exactly `[(v, s)]` where `s` is the status of the
LAST parse event carrying that id — so the recorded status is pinned to one
of the events' statuses (the last one), not an arbitrary string. -/
theorem c6_events_recorded (filename : String) (pages : List Page)
    (v st : String) (d : PDefect)
    (hv : extractVersionFromFilename filename = some v)
    (hev : (st, d) ∈ parseEvents none pages) :
    ∃ e evs, (parseEvents none pages).filter (fun e2 => e2.2.id == d.id) = e :: evs
      ∧ (st, d) ∈ e :: evs
      ∧ (∃ p, p ∈ e :: evs ∧ p.1 = lastFst e evs)
      ∧ dmLookup (extractDefectsFromPdf filename pages) d.id
          = some { e.2 with version_history := [(v, lastFst e evs)] } := by
  have hmem : (st, d) ∈ (parseEvents none pages).filter (fun e2 => e2.2.id == d.id) :=
    List.mem_filter.mpr ⟨hev, by simp⟩
  cases hf : (parseEvents none pages).filter (fun e2 => e2.2.id == d.id) with
  | nil =>
    exfalso
    rw [hf] at hmem
    cases hmem
  | cons e rest =>
    obtain ⟨st1, d1⟩ := e
    rw [hf] at hmem
    refine ⟨(st1, d1), rest, rfl, hmem, lastFst_mem rest (st1, d1), ?_⟩
    unfold extractDefectsFromPdf
    rw [hv]
    show dmLookup (extractLoop v none [] pages) d.id
      = some { d1 with version_history := [(v, lastFst (st1, d1) rest)] }
    rw [extractLoop_eq, buildFold_lookup, hf]
    have hnil : dmLookup ([] : DocMap) d.id = none := rfl
    rw [hnil]
    exact foldOcc_none_closed v st1 d1 rest

/-- C6 witness: `c6_events_recorded` at the two-section document and the
closed-section parse event for `FI-100205`; here the matching events are
`("closed", sampleDefect)` then `("known", sampleDefect)` and the recorded
status is the last one, `known`. -/
theorem c6_events_witness :
    ∃ e evs, (parseEvents none twoSectionPages).filter
        (fun e2 => e2.2.id == sampleDefect.id) = e :: evs
      ∧ ("closed", sampleDefect) ∈ e :: evs
      ∧ (∃ p, p ∈ e :: evs ∧ p.1 = lastFst e evs)
      ∧ dmLookup (extractDefectsFromPdf "fastiron-08090-releasenotes-1.0.pdf"
            twoSectionPages) sampleDefect.id
          = some { e.2 with version_history := [("8.0.90", lastFst e evs)] } :=
  c6_events_recorded "fastiron-08090-releasenotes-1.0.pdf" twoSectionPages
    "8.0.90" "closed" sampleDefect (by decide) (by decide)

/-- C7 counterexample: a label with internal double whitespace (`Found  In`)
routes nowhere in the code (the value is dropped, `found_in` stays empty),
although after whitespace-collapsing the label does contain `found in` and
the scanner does extract a token from the value — so the claimed
whitespace-collapse does not happen. -/
theorem c7_collapse_counterexample :
    (parseDefectTable spacedLabelTable).map (fun d => d.found_in) = some []
    ∧ containsSub (pyLower (cleanText "Found  In")) "found in" = true
    ∧ findallFI "FI 8.0.90" = ["8.0.90"] :=
  ⟨by decide, by decide, by decide⟩

/-- C7 as amended: for every row with at least 2 cells, the parser
lower-cases and strips (without collapsing internal whitespace) the first
cell, matches it by substring against the labels in order `symptom`,
`condition`, `workaround`, `recovery`, `probability`, `found in`,
`technology`; the first match determines the field receiving the value and
unmatched rows are ignored; rows with fewer than 2 cells are skipped. -/
theorem c7_row_routing (d : PDefect) (c1 c2 : String) (rest : List String) :
    parseRow d (c1 :: c2 :: rest) = specApplyRow d (pyLower (pyStrip c1)) (pyStrip c2)
    ∧ parseRow d [] = d ∧ parseRow d [c1] = d :=
  ⟨parseRow_eq_specApplyRow d c1 c2 rest, rfl, rfl⟩

/-- C8: a document whose filename version cannot be parsed yields an empty
per-document map, and that empty map contributes nothing to a merge. -/
theorem c8_bad_filename_yields_empty (filename : String) (pages : List Page)
    (h : extractVersionFromFilename filename = none) :
    extractDefectsFromPdf filename pages = []
    ∧ ∀ (maps : List DocMap) (fi : String),
        mergeMaps (extractDefectsFromPdf filename pages :: maps) fi = mergeMaps maps fi := by
  have he : extractDefectsFromPdf filename pages = [] := by
    unfold extractDefectsFromPdf
    rw [h]
  refine ⟨he, ?_⟩
  intro maps fi
  rw [he]
  rfl

/-- C8 witness: `c8_bad_filename_yields_empty` at `fastiron-badname.pdf`
with a page holding a parseable table. -/
theorem c8_bad_filename_witness :
    extractDefectsFromPdf "fastiron-badname.pdf" [("Known Issues", [sampleTable])] = []
    ∧ mergeMaps (extractDefectsFromPdf "fastiron-badname.pdf"
        [("Known Issues", [sampleTable])] :: [mapA]) "FI-1" = mergeMaps [mapA] "FI-1" := by
  have h := c8_bad_filename_yields_empty "fastiron-badname.pdf"
    [("Known Issues", [sampleTable])] (by decide)
  exact ⟨h.1, h.2 [mapA] "FI-1"⟩

/-- C9: merging a sequence of per-document maps concatenated with itself
yields the same ledger record, field by field, as merging it once; the side
condition records that each entry's history is a dict (no duplicate
keys), which the extractor guarantees structurally. -/
theorem c9_merge_idempotent (maps : List DocMap) (fi : String)
    (hs : ∀ m ∈ maps, ∀ p ∈ m, (aKeys (p.2).version_history).Nodup) :
    mergeDefects (maps ++ maps) fi = mergeDefects maps fi := by
  unfold mergeDefects
  rw [mergeMaps_eq_occs, mergeMaps_eq_occs]
  have hocc : occsOf (maps ++ maps) fi = occsOf maps fi ++ occsOf maps fi := by
    unfold occsOf
    rw [List.flatMap_append]
  rw [hocc, mergeOcc_idem _ (@occs_prop (fun d => (aKeys d.version_history).Nodup) maps fi hs)]

/-- C9 witness: `c9_merge_idempotent` at the concrete corpus of `mapA` and
`mapB` for defect `FI-1`. -/
theorem c9_merge_idempotent_witness :
    mergeDefects ([mapA, mapB] ++ [mapA, mapB]) "FI-1"
      = mergeDefects [mapA, mapB] "FI-1" := by
  refine c9_merge_idempotent [mapA, mapB] "FI-1" ?_
  intro m hm p hp
  simp only [List.mem_cons, List.not_mem_nil, or_false] at hm
  rcases hm with hm | hm <;> subst hm <;>
    simp only [mapA, mapB, List.mem_cons, List.not_mem_nil, or_false] at hp <;>
    subst hp <;> decide

/-- C10: when a page's text matches both the closed-issues pattern and the
known-issues pattern, the tracker reports `closed`: the closed pattern is
tried first. -/
theorem c10_closed_precedence (pageText : String)
    (hc : closedSearch pageText.data = true)
    (_hk : listFindCI "known issues".data pageText.data = true) :
    determineSectionStatus pageText = some "closed" := by
  unfold determineSectionStatus
  rw [if_pos hc]

/-- C10 witness: a page text carrying both headings is classified closed. -/
theorem c10_closed_witness :
    determineSectionStatus "Known Issues and Closed Issues with Code Changes"
      = some "closed" :=
  c10_closed_precedence "Known Issues and Closed Issues with Code Changes"
    (by decide) (by decide)

end FastIron
